import Mathlib

/-!
Verification of the asynchronous file sorter (`task1.py`).

The program scans a source directory tree with `os.walk`, and for every file
found it computes a destination bucket from the file name's extension
(`Path.suffix`, stripped of its leading dot and uppercased, or the sentinel
`NO_EXTENSION` when the suffix is empty), creates the bucket directory with
`mkdir(parents=True, exist_ok=True)`, and copies the file there with
`shutil.copy2`.  Every definition below is a shallow embedding of the
corresponding Python construct:

* paths are lists of components (`pathlib` joins components with `/`);
* the filesystem is a state with a set of directories and a partial map from
  paths to file contents; `mkdir(parents=True, exist_ok=True)` fails exactly
  when a regular file sits at the target or one of its ancestors, and
  otherwise creates all missing ancestors; `shutil.copy2` overwrites an
  existing destination file, and when the destination is an existing
  directory it copies into that directory under the source's base name;
* transient environmental failures of the two per-file operations (the
  `except Exception` arms of `copy_file`) are injected through a fault
  oracle carried by the environment;
* `asyncio.gather` over the per-file coroutines is linearised as a fold for
  the state semantics; the ordering claim about the completion log line is
  settled against an explicit interleaving (schedule) model of the same
  per-task event streams.
-/

/-! ## Paths and raw string helpers -/

/-- A filesystem path, as the list of its components (the way `pathlib`
composes `output_dir / extension / name`).  File names produced by
`os.walk` are single components. -/
abbrev FPath := List String

/-- Error text carried by a raised exception. -/
abbrev Err := String

/-- Index of the last '.' in a list of characters, if any
(`str.rfind('.')` restricted to a found result). -/
def rfindDot : List Char → Option Nat
  | [] => none
  | c :: cs =>
    match rfindDot cs with
    | some i => some (i + 1)
    | none => if c = '.' then some 0 else none

/-- `pathlib.PurePath.suffix` of a file name: the substring from the last
dot on, provided that dot is neither the first nor the last character of
the name; otherwise the empty string. -/
def pathSuffix (name : String) : String :=
  match rfindDot name.data with
  | some i => if 0 < i ∧ i < name.data.length - 1 then String.mk (name.data.drop i) else ""
  | none => ""

/-- `str.upper()` restricted to the ASCII range, as a plain character map
(Python's `str.upper` on the names at issue). -/
def strUpper (s : String) : String := String.mk (s.data.map Char.toUpper)

/-- The sentinel bucket for files without an extension
(`NO_EXTENSION_DIR` in the source). -/
def NO_EXTENSION_DIR : String := "NO_EXTENSION"

/-- Lines 16-19 of `copy_file`: the bucket (subdirectory) name for a file
name, `source_path.suffix[1:].upper()` when the suffix is non-empty and the
sentinel otherwise. -/
def bucketName (name : String) : String :=
  if pathSuffix name = "" then NO_EXTENSION_DIR
  else strUpper (String.mk ((pathSuffix name).data.drop 1))

/-- `pathlib.PurePath.name`: the final component of a path. -/
def pathName (p : FPath) : String := p.getLastD ""

/-- The destination bucket directory `output_dir / extension` computed by
`copy_file` (line 21). -/
def targetDirOf (out src : FPath) : FPath := out ++ [bucketName (pathName src)]

/-- The destination path `target_dir / source_path.name` computed by
`copy_file` (line 22). -/
def targetPathOf (out src : FPath) : FPath := targetDirOf out src ++ [pathName src]

/-- Bucket name as claim C1's words describe it: the substring after the
last '.' of the name, uppercased, whenever the name has a '.', and the
sentinel only when it has none. -/
def specBucketName (name : String) : String :=
  match rfindDot name.data with
  | some i => strUpper (String.mk (name.data.drop (i + 1)))
  | none => NO_EXTENSION_DIR

/-- Bucket name as claim C1 reads after amendment: the uppercased substring
after the last '.' when that dot is neither the first nor the last
character of the name, the sentinel otherwise. -/
def specBucketNameAmended (name : String) : String :=
  match rfindDot name.data with
  | some i =>
    if 0 < i ∧ i < name.data.length - 1 then strUpper (String.mk (name.data.drop (i + 1)))
    else NO_EXTENSION_DIR
  | none => NO_EXTENSION_DIR

/-! ## Filesystem state -/

/-- The output-side filesystem state: which paths are directories, and which
paths hold a regular file (with its content). -/
structure FS where
  dir : FPath → Bool
  file : FPath → Option String

/-- Mark a single path as an existing directory. -/
def FS.addDir (fs : FS) (p : FPath) : FS :=
  ⟨fun q => if q = p then true else fs.dir q, fs.file⟩

/-- Mark several paths as existing directories. -/
def FS.addDirs (fs : FS) (ps : List FPath) : FS := ps.foldl FS.addDir fs

/-- Write (create or overwrite) the regular file at `p`. -/
def FS.setFile (fs : FS) (p : FPath) (c : String) : FS :=
  ⟨fs.dir, fun q => if q = p then some c else fs.file q⟩

/-- All ancestors of a path, the path itself and the root included. -/
def subpaths : FPath → List FPath
  | [] => [[]]
  | a :: p => [] :: (subpaths p).map (a :: ·)

/-- `Path.mkdir(parents=True, exist_ok=True)` raises exactly when a regular
file occupies the target path or one of its ancestors. -/
def dirBlocked (fs : FS) (p : FPath) : Bool :=
  (subpaths p).any (fun q => (fs.file q).isSome)

/-- `Path.mkdir(parents=True, exist_ok=True)`: create the directory and all
missing ancestors, succeeding when they already exist as directories and
raising when a regular file is in the way. -/
def mkdirTree (p : FPath) (fs : FS) : Except Err FS :=
  if dirBlocked fs p then Except.error "mkdir failed" else Except.ok (fs.addDirs (subpaths p))

/-- `shutil.copy2 source target`: overwrite the regular file at the target;
when the target is an existing directory, copy into it under the source's
base name, raising if that inner path is itself a directory. -/
def copy2 (content : String) (name : String) (tpath : FPath) (fs : FS) : Except Err FS :=
  if fs.dir tpath then
    if fs.dir (tpath ++ [name]) then Except.error "IsADirectoryError"
    else Except.ok (fs.setFile (tpath ++ [name]) content)
  else Except.ok (fs.setFile tpath content)

/-! ## Environment, per-file operations -/

/-- Transient environmental failures injected into the two guarded
operations of `copy_file` for one source file: `None` means the operation
proceeds normally, `some e` means it raises `e`. -/
structure Faults where
  mkdirErr : Option Err
  copyErr : Option Err

/-- The run's fixed environment: content of every source file (read by
`shutil.copy2`) and the fault oracle for the two guarded operations. -/
structure Env where
  content : FPath → String
  faults : FPath → Faults

/-- The first guarded operation of `copy_file` (line 25):
`target_dir.mkdir(parents=True, exist_ok=True)`, possibly raising a
transient environmental error instead. -/
def mkdirOp (env : Env) (src tdir : FPath) (fs : FS) : Except Err FS :=
  match (env.faults src).mkdirErr with
  | some e => Except.error e
  | none => mkdirTree tdir fs

/-- The second guarded operation of `copy_file` (line 32):
`shutil.copy2(source_path, target_path)`, possibly raising a transient
environmental error instead. -/
def copyOp (env : Env) (src tpath : FPath) (fs : FS) : Except Err FS :=
  match (env.faults src).copyErr with
  | some e => Except.error e
  | none => copy2 (env.content src) (pathName src) tpath fs

/-- Log lines emitted by the program, one constructor per logging call. -/
inductive LogLine
  | scanStart (d : FPath)
  | scanError (d : FPath) (e : Err)
  | noFiles
  | found (n : Nat)
  | copying (name : String) (bucket : String)
  | mkdirError (tdir : FPath) (e : Err)
  | copyError (src : FPath) (e : Err)
  | allProcessed
  | srcInvalid (p : FPath)
  | outMkdirError (p : FPath) (e : Err)
  deriving DecidableEq, Repr

/-- How one `copy_file` coroutine resolved. -/
inductive Outcome
  | ok
  | mkdirFailed (e : Err)
  | copyFailed (e : Err)
  deriving DecidableEq, Repr

/-- A primitive filesystem operation attempted by `copy_file`. -/
inductive Op
  | mkdir (p : FPath)
  | copy (src tgt : FPath)
  deriving DecidableEq, Repr

/-- Result of one `copy_file` coroutine: the filesystem afterwards, the
resolution, the log lines it emitted, and the primitive operations it
attempted. -/
structure FileResult where
  fs : FS
  outcome : Outcome
  log : List LogLine
  attempts : List Op

/-- `copy_file(source_path, output_dir)` (lines 15-34): compute the bucket
and destination, attempt the directory creation and, only if it succeeded,
announce and attempt the copy; each of the two operations is guarded by its
own `try/except Exception` arm that logs the error and lets the coroutine
return normally. -/
def copy_file (env : Env) (src out : FPath) (fs : FS) : FileResult :=
  let extension := bucketName (pathName src)
  let target_dir := out ++ [extension]
  let target_path := target_dir ++ [pathName src]
  match mkdirOp env src target_dir fs with
  | Except.error e =>
    ⟨fs, Outcome.mkdirFailed e, [LogLine.mkdirError target_dir e], [Op.mkdir target_dir]⟩
  | Except.ok fs1 =>
    match copyOp env src target_path fs1 with
    | Except.error e =>
      ⟨fs1, Outcome.copyFailed e,
        [LogLine.copying (pathName src) extension, LogLine.copyError src e],
        [Op.mkdir target_dir, Op.copy src target_path]⟩
    | Except.ok fs2 =>
      ⟨fs2, Outcome.ok, [LogLine.copying (pathName src) extension],
        [Op.mkdir target_dir, Op.copy src target_path]⟩

/-- What one resolved coroutine looks like from outside the filesystem:
its resolution, its log lines, and the operations it attempted. -/
def resultView (r : FileResult) : Outcome × List LogLine × List Op :=
  (r.outcome, r.log, r.attempts)

/-! ## Scanner (`os.walk`) -/

/-- A node of the source directory tree as `os.walk` classifies entries:
regular files and symlinks whose target is not a directory land in the
`files` list of their parent; directories are walked into; symlinks to
directories are listed as directories but, `followlinks` being false by
default, never walked into. -/
inductive FsNode
  | file
  | symlinkFile
  | symlinkDir
  | dir (entries : List (String × FsNode))

/-- The source paths collected by the `os.walk` loop of `read_folder`
(lines 43-47): every non-directory entry at every nesting level, joined as
`root_path / file_name`; real subdirectories are walked into, symlinked
directories are not.  This definition linearises the walk in
directory-entry order (interleaving a directory's own files with descents
into its subdirectories) whereas `os.walk` lists a directory's files before
descending; the collection of enumerated paths is the same and no claim
depends on the enumeration order. -/
def walkTasks : FPath → List (String × FsNode) → List FPath
  | _, [] => []
  | root, (n, FsNode.file) :: rest => (root ++ [n]) :: walkTasks root rest
  | root, (n, FsNode.symlinkFile) :: rest => (root ++ [n]) :: walkTasks root rest
  | root, (_, FsNode.symlinkDir) :: rest => walkTasks root rest
  | root, (n, FsNode.dir es) :: rest => walkTasks (root ++ [n]) es ++ walkTasks root rest

/-- The enumeration claim C3 describes before amendment: only regular
files are enumerated, recursively through subdirectories; symlinks of any
kind contribute nothing. -/
def specScanRegularFiles : FPath → List (String × FsNode) → List FPath
  | _, [] => []
  | root, (n, FsNode.file) :: rest => (root ++ [n]) :: specScanRegularFiles root rest
  | root, (n, FsNode.dir es) :: rest =>
    specScanRegularFiles (root ++ [n]) es ++ specScanRegularFiles root rest
  | root, _ :: rest => specScanRegularFiles root rest

/-- The enumeration claim C3 describes after amendment: every non-directory
entry (regular file or symlink to a non-directory) is enumerated,
recursively through real subdirectories; symlinked directories are listed
but not traversed, and directories themselves are never enumerated. -/
def specScanNonDirEntries : FPath → List (String × FsNode) → List FPath
  | _, [] => []
  | root, (n, FsNode.file) :: rest => (root ++ [n]) :: specScanNonDirEntries root rest
  | root, (n, FsNode.symlinkFile) :: rest => (root ++ [n]) :: specScanNonDirEntries root rest
  | root, (_, FsNode.symlinkDir) :: rest => specScanNonDirEntries root rest
  | root, (n, FsNode.dir es) :: rest =>
    specScanNonDirEntries (root ++ [n]) es ++ specScanNonDirEntries root rest

/-- Whether the relative component list `rel` leads from the given entry
list through real directories to a non-directory entry (a regular file or
a symlink to a non-directory).  A path ending at a directory or at a
symlinked directory does not qualify. -/
def relHitsNonDir : List (String × FsNode) → List String → Bool
  | _, [] => false
  | [], _ :: _ => false
  | (m, nd) :: rest, n :: rel =>
    (if m = n then
      (match nd, rel with
       | FsNode.file, [] => true
       | FsNode.symlinkFile, [] => true
       | FsNode.dir es, _ :: _ => relHitsNonDir es rel
       | _, _ => false)
     else false) || relHitsNonDir rest (n :: rel)

/-! ## Orchestration -/

/-- One run's per-file results and final filesystem, folding the
`copy_file` coroutines of `asyncio.gather` in task order. -/
def gatherResults (env : Env) (out : FPath) : List FPath → FS → List FileResult × FS
  | [], fs => ([], fs)
  | src :: rest, fs =>
    let r := copy_file env src out fs
    (r :: (gatherResults env out rest r.fs).1, (gatherResults env out rest r.fs).2)

/-- Observable result of a run: the filesystem, the log, and the per-file
results (empty when no copy was started). -/
structure RunOut where
  fs : FS
  log : List LogLine
  results : List FileResult

/-- `read_folder(source_dir, output_dir)` (lines 37-60): log the scan
start; iterating `os.walk` is represented by the already-collected task
list paired with `some e` when the iteration raised `e` after yielding
them (the `except` arm at line 48 then logs the error and returns without
awaiting anything, so the collected coroutines are dropped); with no files
a warning is logged and nothing happens; otherwise the found count is
logged, all `copy_file` coroutines are awaited through `asyncio.gather`,
and only then is the completion line logged. -/
def read_folder (env : Env) (src out : FPath) (walk : List FPath × Option Err) (fs : FS) :
    RunOut :=
  match walk.2 with
  | some e => ⟨fs, [LogLine.scanStart src, LogLine.scanError src e], []⟩
  | none =>
    if walk.1.isEmpty then ⟨fs, [LogLine.scanStart src, LogLine.noFiles], []⟩
    else
      let rf := gatherResults env out walk.1 fs
      ⟨rf.2,
        [LogLine.scanStart src, LogLine.found walk.1.length]
          ++ rf.1.flatMap (fun r => r.log) ++ [LogLine.allProcessed],
        rf.1⟩

/-- What `source_path.is_dir()` can observe about the source path. -/
inductive PathStat
  | missing
  | file
  | dir
  deriving DecidableEq, Repr

/-- Truth value of `source_path.is_dir()`. -/
def PathStat.isDir? : PathStat → Bool
  | PathStat.dir => true
  | _ => false

/-- `main()` after argument parsing (lines 79-99): abort with an error when
the source is not a directory; create the output root with
`mkdir(parents=True, exist_ok=True)`, aborting with an error when that
raises; then run `read_folder`. -/
def mainRun (src out : FPath) (st : PathStat) (env : Env) (walk : List FPath × Option Err)
    (fs : FS) : RunOut :=
  if !st.isDir? then ⟨fs, [LogLine.srcInvalid src], []⟩
  else
    match mkdirTree out fs with
    | Except.error e => ⟨fs, [LogLine.outMkdirError out e], []⟩
    | Except.ok fs1 => read_folder env src out walk fs1

/-! ## Write-operation semantics used to reason about runs -/

/-- A single state write performed during a run: registering a directory or
writing a file. -/
inductive WOp
  | wdir (p : FPath)
  | wfile (p : FPath) (c : String)

/-- Apply one write to the filesystem. -/
def applyW (fs : FS) : WOp → FS
  | WOp.wdir p => fs.addDir p
  | WOp.wfile p c => fs.setFile p c

/-- Apply a sequence of writes, left to right. -/
def applyWs (fs : FS) (ops : List WOp) : FS := ops.foldl applyW fs

/-- The last content written to `q` by a write sequence, if any. -/
def lastFileWrite : List WOp → FPath → Option String
  | [], _ => none
  | op :: ops, q =>
    match lastFileWrite ops q with
    | some c => some c
    | none =>
      match op with
      | WOp.wfile p c => if q = p then some c else none
      | _ => none

/-- Whether a write sequence registers `q` as a directory. -/
def hasDirWrite : List WOp → FPath → Bool
  | [], _ => false
  | WOp.wdir p :: ops, q => q = p || hasDirWrite ops q
  | _ :: ops, q => hasDirWrite ops q

/-- The writes `copy_file` performs for one source file, with its branch
conditions evaluated against the reference state `fs0`; `copy_file` started
in any state agreeing with `fs0` on those reads performs exactly these
writes. -/
def fileWOps (env : Env) (out src : FPath) (fs0 : FS) : List WOp :=
  match (env.faults src).mkdirErr with
  | some _ => []
  | none =>
    if dirBlocked fs0 (targetDirOf out src) then []
    else
      (subpaths (targetDirOf out src)).map WOp.wdir ++
        (match (env.faults src).copyErr with
         | some _ => []
         | none =>
           if fs0.dir (targetPathOf out src) then
             if fs0.dir (targetPathOf out src ++ [pathName src]) then []
             else [WOp.wfile (targetPathOf out src ++ [pathName src]) (env.content src)]
           else [WOp.wfile (targetPathOf out src) (env.content src)])

/-- Boundedness of a write relative to the output root: directory writes
stay at depth at most one below the root (the bucket directories and the
root's own ancestors), file writes at depth at least two (inside a
bucket). -/
def wopBounded (out : FPath) : WOp → Prop
  | WOp.wdir p => p.length ≤ out.length + 1
  | WOp.wfile p _ => out.length + 2 ≤ p.length

/-- Agreement of two filesystem states on everything `copy_file` and the
output-root creation ever read: file entries at depth at most one below
the output root, and directory entries at depth at least two. -/
def agreeOut (out : FPath) (fsa fsb : FS) : Prop :=
  (∀ q : FPath, q.length ≤ out.length + 1 → fsa.file q = fsb.file q) ∧
    (∀ q : FPath, out.length + 2 ≤ q.length → fsa.dir q = fsb.dir q)

/-! ## Concurrency model for the gather barrier -/

/-- An event of one `copy_file` task: a log line it emits, or its
resolution (normal return with its outcome). -/
inductive TEvent
  | logLine (l : LogLine)
  | resolved (src : FPath) (o : Outcome)
  deriving DecidableEq, Repr

/-- The event stream of one `copy_file` task: its log lines, then its
resolution. -/
def taskEvents (env : Env) (out : FPath) (fs : FS) (src : FPath) : List TEvent :=
  ((copy_file env src out fs).log).map TEvent.logLine ++
    [TEvent.resolved src (copy_file env src out fs).outcome]

/-- A schedule is any interleaving of the task event streams: each event is
tagged with its task index and, restricted to one task, the schedule plays
that task's events in order and completely (that is what awaiting
`asyncio.gather` guarantees). -/
def isSchedule (tasks : List (List TEvent)) (sched : List (Nat × TEvent)) : Bool :=
  sched.all (fun x => x.1 < tasks.length) &&
    (List.range tasks.length).all
      (fun i => decide (((sched.filter (fun x => x.1 == i)).map Prod.snd) = tasks.getD i []))

/-- The events observable from the copy phase of `read_folder` under a
schedule: the interleaved task events, then (line 60, reached only after
`asyncio.gather` returned) the completion log line. -/
def gatherRunEvents (sched : List (Nat × TEvent)) : List TEvent :=
  sched.map Prod.snd ++ [TEvent.logLine LogLine.allProcessed]

/-- The externally visible part of `copy_file`'s behaviour (resolution, log,
attempted operations), computed from the branch conditions as read against a
reference state `fs0`; `copy_file` run in any state agreeing with `fs0` on
those reads produces exactly this view. -/
def copyView (env : Env) (out src : FPath) (fs0 : FS) : Outcome × List LogLine × List Op :=
  let extension := bucketName (pathName src)
  let target_dir := out ++ [extension]
  let target_path := target_dir ++ [pathName src]
  match (env.faults src).mkdirErr with
  | some e =>
    (Outcome.mkdirFailed e, [LogLine.mkdirError target_dir e], [Op.mkdir target_dir])
  | none =>
    if dirBlocked fs0 target_dir then
      (Outcome.mkdirFailed "mkdir failed", [LogLine.mkdirError target_dir "mkdir failed"],
        [Op.mkdir target_dir])
    else
      match (env.faults src).copyErr with
      | some e =>
        (Outcome.copyFailed e,
          [LogLine.copying (pathName src) extension, LogLine.copyError src e],
          [Op.mkdir target_dir, Op.copy src target_path])
      | none =>
        if fs0.dir target_path && fs0.dir (target_path ++ [pathName src]) then
          (Outcome.copyFailed "IsADirectoryError",
            [LogLine.copying (pathName src) extension,
              LogLine.copyError src "IsADirectoryError"],
            [Op.mkdir target_dir, Op.copy src target_path])
        else
          (Outcome.ok, [LogLine.copying (pathName src) extension],
            [Op.mkdir target_dir, Op.copy src target_path])

/-! ## Concrete objects used by witnesses -/

/-- The empty output filesystem. -/
def emptyFS : FS := ⟨fun _ => false, fun _ => none⟩

/-- An environment with fixed contents and no injected faults. -/
def plainEnv : Env := ⟨fun _ => "content", fun _ => ⟨none, none⟩⟩

/-- An environment whose directory-creation step always raises `boom`. -/
def mkdirFailEnv : Env := ⟨fun _ => "content", fun _ => ⟨some "boom", none⟩⟩

/-- A filesystem whose path `o` is occupied by a regular file. -/
def fileAtOut : FS := ⟨fun _ => false, fun q => if q = ["o"] then some "occupied" else none⟩

/-! ## Lemmas about names, suffixes and buckets -/

theorem rfindDot_eq_none {cs : List Char} (h : '.' ∉ cs) : rfindDot cs = none := by
  induction cs with
  | nil => rfl
  | cons c cs ih =>
    have hc : c ≠ '.' := fun hc => h (hc ▸ List.mem_cons_self c cs)
    have hcs : '.' ∉ cs := fun hm => h (List.mem_cons_of_mem c hm)
    simp [rfindDot, ih hcs, if_neg (fun hcc => hc hcc)]

theorem rfindDot_lt {cs : List Char} {i : Nat} (h : rfindDot cs = some i) : i < cs.length := by
  induction cs generalizing i with
  | nil => simp [rfindDot] at h
  | cons c cs ih =>
    simp only [rfindDot] at h
    cases hcs : rfindDot cs with
    | some j =>
      rw [hcs] at h
      cases h
      exact Nat.succ_lt_succ (ih hcs)
    | none =>
      rw [hcs] at h
      by_cases hc : c = '.'
      · simp only [hc, if_pos rfl] at h
        cases h
        exact Nat.succ_pos _
      · simp [hc] at h

theorem pathSuffix_of_none {name : String} (h : rfindDot name.data = none) :
    pathSuffix name = "" := by
  unfold pathSuffix
  rw [h]

theorem pathSuffix_of_some_pos {name : String} {i : Nat} (h : rfindDot name.data = some i)
    (hc : 0 < i ∧ i < name.data.length - 1) :
    pathSuffix name = String.mk (name.data.drop i) := by
  unfold pathSuffix
  rw [h]
  show (if 0 < i ∧ i < name.data.length - 1 then String.mk (name.data.drop i) else "")
      = String.mk (name.data.drop i)
  rw [if_pos hc]

theorem pathSuffix_of_some_neg {name : String} {i : Nat} (h : rfindDot name.data = some i)
    (hc : ¬(0 < i ∧ i < name.data.length - 1)) : pathSuffix name = "" := by
  unfold pathSuffix
  rw [h]
  show (if 0 < i ∧ i < name.data.length - 1 then String.mk (name.data.drop i) else "") = ""
  rw [if_neg hc]

theorem bucketName_eq_amended (name : String) : bucketName name = specBucketNameAmended name := by
  unfold bucketName specBucketNameAmended
  cases hfd : rfindDot name.data with
  | none =>
    rw [pathSuffix_of_none hfd, if_pos rfl]
  | some i =>
    by_cases hcond : 0 < i ∧ i < name.data.length - 1
    · have hi : i < name.data.length := rfindDot_lt hfd
      have hne : String.mk (name.data.drop i) ≠ "" := by
        intro hmk
        have h0 : name.data.drop i = ([] : List Char) := by
          simpa using congrArg String.data hmk
        have hlen := congrArg List.length h0
        rw [List.length_drop] at hlen
        simp only [List.length_nil] at hlen
        omega
      rw [pathSuffix_of_some_pos hfd hcond, if_neg hne]
      show strUpper (String.mk (List.drop 1 (List.drop i name.data)))
          = (if 0 < i ∧ i < name.data.length - 1 then
              strUpper (String.mk (name.data.drop (i + 1))) else NO_EXTENSION_DIR)
      rw [if_pos hcond, List.drop_drop, Nat.add_comm]
    · rw [pathSuffix_of_some_neg hfd hcond, if_pos rfl]
      show NO_EXTENSION_DIR
          = (if 0 < i ∧ i < name.data.length - 1 then
              strUpper (String.mk (name.data.drop (i + 1))) else NO_EXTENSION_DIR)
      rw [if_neg hcond]

/-- Claim C1, counterexample: the claim's bucket formula (uppercased
substring after the last '.', sentinel only without a '.') disagrees with
`copy_file` on the name `.gitignore`: the code routes it to the sentinel
bucket while the claimed formula yields `GITIGNORE`. -/
theorem c1_spec_bucket_counterexample :
    bucketName ".gitignore" = "NO_EXTENSION" ∧
      specBucketName ".gitignore" = "GITIGNORE" ∧
      bucketName ".gitignore" ≠ specBucketName ".gitignore" :=
  ⟨by decide, by decide, by decide⟩

/-- Claim C1 (amended): the destination bucket name is the uppercased
substring after the last '.' of the file name whenever that dot is neither
the first nor the last character of the name, and the sentinel bucket name
otherwise; the destination path computed by `copy_file` equals
`output_root / bucket / name`, which is the only destination `copy_file`
ever attempts to copy to; in particular `README` maps to the sentinel
bucket and `archive.tar.gz` to bucket `GZ`. -/
theorem c1_bucket_and_target_amended :
    (∀ name : String, bucketName name = specBucketNameAmended name) ∧
      (∀ out src : FPath,
        targetPathOf out src = out ++ [bucketName (pathName src), pathName src]) ∧
      (∀ (env : Env) (src out : FPath) (fs : FS),
        (copy_file env src out fs).attempts = [Op.mkdir (targetDirOf out src)] ∨
          (copy_file env src out fs).attempts
            = [Op.mkdir (targetDirOf out src), Op.copy src (targetPathOf out src)]) ∧
      bucketName "README" = NO_EXTENSION_DIR ∧ bucketName "archive.tar.gz" = "GZ" := by
  refine ⟨bucketName_eq_amended, ?_, ?_, by decide, by decide⟩
  · intro out src
    simp [targetPathOf, targetDirOf]
  · intro env src out fs
    cases hmk : mkdirOp env src (out ++ [bucketName (pathName src)]) fs with
    | error e => exact Or.inl (by simp [copy_file, hmk, targetDirOf])
    | ok fs1 =>
      cases hcp : copyOp env src (out ++ [bucketName (pathName src), pathName src]) fs1 with
      | error e =>
        exact Or.inr (by simp [copy_file, hmk, hcp, targetDirOf, targetPathOf])
      | ok fs2 =>
        exact Or.inr (by simp [copy_file, hmk, hcp, targetDirOf, targetPathOf])

/-- Claim C8: a file whose name starts with a '.' and has no other '.'
(such as `.gitignore`) is routed by `copy_file` to the sentinel bucket,
the leading dot being part of the stem rather than an extension
separator. -/
theorem c8_hidden_file_sentinel (out p : FPath) (rest : List Char)
    (hdot : '.' ∉ rest) (hname : pathName p = String.mk ('.' :: rest)) :
    bucketName (pathName p) = NO_EXTENSION_DIR ∧
      targetDirOf out p = out ++ [NO_EXTENSION_DIR] := by
  have hfd : rfindDot (String.mk ('.' :: rest)).data = some 0 := by
    show rfindDot ('.' :: rest) = some 0
    simp [rfindDot, rfindDot_eq_none hdot]
  have hb : bucketName (pathName p) = NO_EXTENSION_DIR := by
    rw [hname]
    unfold bucketName
    rw [pathSuffix_of_some_neg hfd (by simp), if_pos rfl]
  exact ⟨hb, by rw [targetDirOf, hb]⟩

/-- Witness for C8 at the concrete name `.gitignore`. -/
theorem c8_hidden_file_sentinel_witness :
    bucketName (pathName [".gitignore"]) = NO_EXTENSION_DIR ∧
      targetDirOf ["output"] [".gitignore"] = ["output"] ++ [NO_EXTENSION_DIR] :=
  c8_hidden_file_sentinel ["output"] [".gitignore"] "gitignore".data (by decide) (by decide)

/-! ## Lemmas about the filesystem state and write sequences -/

theorem FS.eq_of {a b : FS} (hd : a.dir = b.dir) (hf : a.file = b.file) : a = b := by
  cases a
  cases b
  cases hd
  cases hf
  rfl

theorem anyCongr {α : Type} {l : List α} {f g : α → Bool} (h : ∀ a ∈ l, f a = g a) :
    l.any f = l.any g := by
  induction l with
  | nil => rfl
  | cons a l ih =>
    simp only [List.any_cons]
    rw [h a (List.mem_cons_self a l), ih (fun b hb => h b (List.mem_cons_of_mem a hb))]

theorem length_le_of_mem_subpaths {q p : FPath} (h : q ∈ subpaths p) : q.length ≤ p.length := by
  induction p generalizing q with
  | nil =>
    simp only [subpaths, List.mem_singleton] at h
    subst h
    exact Nat.le_refl _
  | cons a p ih =>
    simp only [subpaths, List.mem_cons, List.mem_map] at h
    rcases h with h | ⟨q', hq', rfl⟩
    · subst h
      exact Nat.zero_le _
    · simpa using Nat.succ_le_succ (ih hq')

theorem self_mem_subpaths (p : FPath) : p ∈ subpaths p := by
  induction p with
  | nil => simp [subpaths]
  | cons a p ih =>
    simp only [subpaths, List.mem_cons, List.mem_map]
    exact Or.inr ⟨p, ih, rfl⟩

theorem targetDirOf_length (out src : FPath) : (targetDirOf out src).length = out.length + 1 := by
  simp [targetDirOf]

theorem targetPathOf_length (out src : FPath) :
    (targetPathOf out src).length = out.length + 2 := by
  simp [targetPathOf, targetDirOf]

theorem applyWs_cons (fs : FS) (op : WOp) (ops : List WOp) :
    applyWs fs (op :: ops) = applyWs (applyW fs op) ops := rfl

theorem applyWs_append (fs : FS) (a b : List WOp) :
    applyWs fs (a ++ b) = applyWs (applyWs fs a) b := by
  simp [applyWs, List.foldl_append]

theorem applyWs_file (ops : List WOp) (fs : FS) (q : FPath) :
    (applyWs fs ops).file q =
      match lastFileWrite ops q with
      | some c => some c
      | none => fs.file q := by
  induction ops generalizing fs with
  | nil => rfl
  | cons op ops ih =>
    rw [applyWs_cons, ih]
    cases hlw : lastFileWrite ops q with
    | some c => simp [lastFileWrite, hlw]
    | none =>
      cases op with
      | wdir p => simp [lastFileWrite, hlw, applyW, FS.addDir]
      | wfile p c =>
        by_cases hq : q = p
        · subst hq
          simp [lastFileWrite, hlw, applyW, FS.setFile]
        · simp [lastFileWrite, hlw, applyW, FS.setFile, hq]

theorem applyWs_dir (ops : List WOp) (fs : FS) (q : FPath) :
    (applyWs fs ops).dir q = (hasDirWrite ops q || fs.dir q) := by
  induction ops generalizing fs with
  | nil => rfl
  | cons op ops ih =>
    rw [applyWs_cons, ih]
    cases op with
    | wfile p c => simp [hasDirWrite, applyW, FS.setFile]
    | wdir p =>
      by_cases hq : q = p
      · simp [hasDirWrite, applyW, FS.addDir, hq]
      · simp [hasDirWrite, applyW, FS.addDir, hq, Bool.or_assoc]

theorem applyWs_idem (fs : FS) (ops : List WOp) :
    applyWs (applyWs fs ops) ops = applyWs fs ops := by
  apply FS.eq_of
  · funext q
    rw [applyWs_dir, applyWs_dir]
    cases hasDirWrite ops q <;> simp
  · funext q
    have h1 := applyWs_file ops (applyWs fs ops) q
    have h2 := applyWs_file ops fs q
    cases hlw : lastFileWrite ops q with
    | some c =>
      simp only [hlw] at h1 h2
      rw [h1, h2]
    | none =>
      simp only [hlw] at h1
      rw [h1]

theorem addDirs_eq_applyWs (fs : FS) (ps : List FPath) :
    fs.addDirs ps = applyWs fs (ps.map WOp.wdir) := by
  induction ps generalizing fs with
  | nil => rfl
  | cons p ps ih =>
    show (fs.addDir p).addDirs ps = _
    rw [ih]
    rfl

theorem lastFileWrite_of_no_hit {ops : List WOp} {q : FPath}
    (h : ∀ p c, WOp.wfile p c ∈ ops → p ≠ q) : lastFileWrite ops q = none := by
  induction ops with
  | nil => rfl
  | cons op ops ih =>
    have htail : lastFileWrite ops q = none :=
      ih (fun p c hp => h p c (List.mem_cons_of_mem op hp))
    cases op with
    | wdir p => simp [lastFileWrite, htail]
    | wfile p c =>
      have hpq : p ≠ q := h p c (List.mem_cons_self _ _)
      simp [lastFileWrite, htail, Ne.symm hpq]

theorem hasDirWrite_of_no_hit {ops : List WOp} {q : FPath}
    (h : ∀ p, WOp.wdir p ∈ ops → p ≠ q) : hasDirWrite ops q = false := by
  induction ops with
  | nil => rfl
  | cons op ops ih =>
    have htail : hasDirWrite ops q = false :=
      ih (fun p hp => h p (List.mem_cons_of_mem op hp))
    cases op with
    | wfile p c => simpa [hasDirWrite] using htail
    | wdir p =>
      have hpq : p ≠ q := h p (List.mem_cons_self _ _)
      simp [hasDirWrite, htail, Ne.symm hpq]

theorem agreeOut_refl (out : FPath) (fs : FS) : agreeOut out fs fs :=
  ⟨fun _ _ => rfl, fun _ _ => rfl⟩

theorem agreeOut_symm {out : FPath} {a b : FS} (h : agreeOut out a b) : agreeOut out b a :=
  ⟨fun q hq => (h.1 q hq).symm, fun q hq => (h.2 q hq).symm⟩

theorem agreeOut_trans {out : FPath} {a b c : FS} (hab : agreeOut out a b)
    (hbc : agreeOut out b c) : agreeOut out a c :=
  ⟨fun q hq => (hab.1 q hq).trans (hbc.1 q hq), fun q hq => (hab.2 q hq).trans (hbc.2 q hq)⟩

theorem agree_applyWs_of_bounded {out : FPath} {ops : List WOp}
    (h : ∀ op ∈ ops, wopBounded out op) (fs : FS) : agreeOut out fs (applyWs fs ops) := by
  constructor
  · intro q hq
    have hnone : lastFileWrite ops q = none := by
      apply lastFileWrite_of_no_hit
      intro p c hp hpq
      have hb := h _ hp
      simp only [wopBounded] at hb
      subst hpq
      omega
    have hfq := applyWs_file ops fs q
    simp only [hnone] at hfq
    exact hfq.symm
  · intro q hq
    have hnone : hasDirWrite ops q = false := by
      apply hasDirWrite_of_no_hit
      intro p hp hpq
      have hb := h _ hp
      simp only [wopBounded] at hb
      subst hpq
      omega
    have hdq := applyWs_dir ops fs q
    simp only [hnone, Bool.false_or] at hdq
    exact hdq.symm

theorem dirBlocked_congr {fsa fsb : FS} {d : FPath}
    (h : ∀ q ∈ subpaths d, fsa.file q = fsb.file q) : dirBlocked fsa d = dirBlocked fsb d := by
  unfold dirBlocked
  exact anyCongr (fun q hq => by rw [h q hq])

theorem fileWOps_bounded (env : Env) (out src : FPath) (fs0 : FS) :
    ∀ op ∈ fileWOps env out src fs0, wopBounded out op := by
  intro op hop
  have htd := targetDirOf_length out src
  have htp := targetPathOf_length out src
  unfold fileWOps at hop
  cases hmk : (env.faults src).mkdirErr with
  | some e => simp [hmk] at hop
  | none =>
    cases hb : dirBlocked fs0 (targetDirOf out src) with
    | true => simp [hmk, hb] at hop
    | false =>
      have hdirs : ∀ q ∈ subpaths (targetDirOf out src), wopBounded out (WOp.wdir q) := by
        intro q hq
        have := length_le_of_mem_subpaths hq
        simp only [wopBounded]
        omega
      cases hcp : (env.faults src).copyErr with
      | some e =>
        simp only [hmk, hb, hcp, Bool.false_eq_true, if_false, List.append_nil,
          List.mem_map] at hop
        obtain ⟨q, hq, rfl⟩ := hop
        exact hdirs q hq
      | none =>
        cases h1 : fs0.dir (targetPathOf out src) with
        | false =>
          simp only [hmk, hb, hcp, h1, Bool.false_eq_true, if_false, List.mem_append,
            List.mem_map, List.mem_singleton] at hop
          rcases hop with ⟨q, hq, rfl⟩ | rfl
          · exact hdirs q hq
          · simp only [wopBounded]
            omega
        | true =>
          cases h2 : fs0.dir (targetPathOf out src ++ [pathName src]) with
          | true =>
            simp only [hmk, hb, hcp, h1, h2, Bool.false_eq_true, if_false, if_true,
              List.append_nil, List.mem_map] at hop
            obtain ⟨q, hq, rfl⟩ := hop
            exact hdirs q hq
          | false =>
            simp only [hmk, hb, hcp, h1, h2, Bool.false_eq_true, if_false, if_true,
              List.mem_append, List.mem_map, List.mem_singleton] at hop
            rcases hop with ⟨q, hq, rfl⟩ | rfl
            · exact hdirs q hq
            · simp only [wopBounded, List.length_append, List.length_singleton]
              omega

theorem copy_file_eval (env : Env) (src out : FPath) (fs fs0 : FS) (h : agreeOut out fs0 fs) :
    (copy_file env src out fs).fs = applyWs fs (fileWOps env out src fs0) ∧
      resultView (copy_file env src out fs) = copyView env out src fs0 := by
  have htd := targetDirOf_length out src
  have htp := targetPathOf_length out src
  simp only [targetDirOf] at htd
  simp only [targetPathOf, targetDirOf] at htp
  have hdb : dirBlocked fs (out ++ [bucketName (pathName src)])
      = dirBlocked fs0 (out ++ [bucketName (pathName src)]) := by
    apply dirBlocked_congr
    intro q hq
    have hlen := length_le_of_mem_subpaths hq
    rw [List.length_append, List.length_singleton] at hlen
    exact (h.1 q (by omega)).symm
  have hbounded : ∀ op ∈ (subpaths (out ++ [bucketName (pathName src)])).map WOp.wdir,
      wopBounded out op := by
    intro op hop
    obtain ⟨q, hq, rfl⟩ := List.mem_map.mp hop
    have hlen := length_le_of_mem_subpaths hq
    rw [List.length_append, List.length_singleton] at hlen
    simp only [wopBounded]
    omega
  have hfs1eq : fs.addDirs (subpaths (out ++ [bucketName (pathName src)]))
      = applyWs fs ((subpaths (out ++ [bucketName (pathName src)])).map WOp.wdir) :=
    addDirs_eq_applyWs fs (subpaths (out ++ [bucketName (pathName src)]))
  have hagree1 : agreeOut out fs (fs.addDirs (subpaths (out ++ [bucketName (pathName src)]))) := by
    rw [hfs1eq]
    exact agree_applyWs_of_bounded hbounded fs
  have hdp : (fs.addDirs (subpaths (out ++ [bucketName (pathName src)]))).dir
        (out ++ [bucketName (pathName src)] ++ [pathName src])
      = fs0.dir (out ++ [bucketName (pathName src)] ++ [pathName src]) := by
    rw [← hagree1.2 (out ++ [bucketName (pathName src)] ++ [pathName src]) (by simp)]
    exact (h.2 (out ++ [bucketName (pathName src)] ++ [pathName src]) (by simp)).symm
  have hdp2 : (fs.addDirs (subpaths (out ++ [bucketName (pathName src)]))).dir
        (out ++ [bucketName (pathName src)] ++ [pathName src] ++ [pathName src])
      = fs0.dir (out ++ [bucketName (pathName src)] ++ [pathName src] ++ [pathName src]) := by
    rw [← hagree1.2 (out ++ [bucketName (pathName src)] ++ [pathName src] ++ [pathName src])
      (by simp)]
    exact (h.2 (out ++ [bucketName (pathName src)] ++ [pathName src] ++ [pathName src])
      (by simp)).symm
  unfold copy_file copyView fileWOps mkdirOp copyOp mkdirTree copy2
  simp only [targetDirOf, targetPathOf]
  cases hmk : (env.faults src).mkdirErr with
  | some e => exact ⟨rfl, rfl⟩
  | none =>
    cases hb : dirBlocked fs0 (out ++ [bucketName (pathName src)]) with
    | true =>
      rw [hb] at hdb
      simp only [hdb, if_true, resultView]
      exact ⟨rfl, trivial⟩
    | false =>
      rw [hb] at hdb
      simp only [hdb, Bool.false_eq_true, if_false]
      cases hcp : (env.faults src).copyErr with
      | some e =>
        refine ⟨?_, rfl⟩
        rw [List.append_nil, ← hfs1eq]
      | none =>
        cases h1 : fs0.dir (out ++ [bucketName (pathName src)] ++ [pathName src]) with
        | false =>
          rw [h1] at hdp
          simp only [hdp, h1, Bool.false_eq_true, if_false, Bool.false_and, resultView]
          refine ⟨?_, trivial⟩
          rw [applyWs_append, ← hfs1eq]
          rfl
        | true =>
          rw [h1] at hdp
          simp only [hdp, h1, if_true, Bool.true_and]
          cases h2 : fs0.dir (out ++ [bucketName (pathName src)] ++ [pathName src]
              ++ [pathName src]) with
          | true =>
            rw [h2] at hdp2
            simp only [hdp2, h2, if_true, List.append_nil, resultView]
            exact ⟨hfs1eq, trivial⟩
          | false =>
            rw [h2] at hdp2
            simp only [hdp2, h2, Bool.false_eq_true, if_false, resultView]
            refine ⟨?_, trivial⟩
            rw [applyWs_append, ← hfs1eq]
            rfl

theorem mapCongr {α β : Type} {l : List α} {f g : α → β} (h : ∀ a ∈ l, f a = g a) :
    l.map f = l.map g := by
  induction l with
  | nil => rfl
  | cons a l ih =>
    simp only [List.map_cons]
    rw [h a (List.mem_cons_self a l), ih (fun b hb => h b (List.mem_cons_of_mem a hb))]

theorem copy_file_agree (env : Env) (src out : FPath) (fs : FS) :
    agreeOut out fs (copy_file env src out fs).fs := by
  rw [(copy_file_eval env src out fs fs (agreeOut_refl out fs)).1]
  exact agree_applyWs_of_bounded (fileWOps_bounded env out src fs) fs

theorem copy_file_view_agree (env : Env) (src out : FPath) {fsa fsb : FS}
    (h : agreeOut out fsa fsb) :
    resultView (copy_file env src out fsa) = resultView (copy_file env src out fsb) := by
  rw [(copy_file_eval env src out fsa fsa (agreeOut_refl out fsa)).2,
    (copy_file_eval env src out fsb fsa h).2]

theorem gatherResults_snd_cons (env : Env) (out src : FPath) (rest : List FPath) (fs : FS) :
    (gatherResults env out (src :: rest) fs).2
      = (gatherResults env out rest (copy_file env src out fs).fs).2 := rfl

theorem gatherResults_agree (env : Env) (out : FPath) (l : List FPath) :
    ∀ fs : FS, agreeOut out fs (gatherResults env out l fs).2 := by
  induction l with
  | nil => exact fun fs => agreeOut_refl out fs
  | cons src rest ih =>
    intro fs
    rw [gatherResults_snd_cons]
    exact agreeOut_trans (copy_file_agree env src out fs) (ih ((copy_file env src out fs).fs))

theorem gatherResults_views (env : Env) (out : FPath) (l : List FPath) :
    ∀ fs : FS, (gatherResults env out l fs).1.map resultView
      = l.map (fun s => resultView (copy_file env s out fs)) := by
  induction l with
  | nil => exact fun _ => rfl
  | cons src rest ih =>
    intro fs
    show resultView (copy_file env src out fs)
        :: ((gatherResults env out rest (copy_file env src out fs).fs).1.map resultView)
      = resultView (copy_file env src out fs)
        :: rest.map (fun s => resultView (copy_file env s out fs))
    rw [ih ((copy_file env src out fs).fs)]
    congr 1
    apply mapCongr
    intro s hs
    exact copy_file_view_agree env s out (agreeOut_symm (copy_file_agree env src out fs))

theorem gatherResults_fs (env : Env) (out : FPath) (l : List FPath) (fs0 : FS) :
    ∀ fs : FS, agreeOut out fs0 fs →
      (gatherResults env out l fs).2
        = applyWs fs (l.flatMap (fun s => fileWOps env out s fs0)) := by
  induction l with
  | nil => exact fun _ _ => rfl
  | cons src rest ih =>
    intro fs h
    rw [gatherResults_snd_cons]
    have hstep := (copy_file_eval env src out fs fs0 h).1
    have hagree : agreeOut out fs0 (copy_file env src out fs).fs :=
      agreeOut_trans h (copy_file_agree env src out fs)
    rw [ih ((copy_file env src out fs).fs) hagree, hstep, ← applyWs_append]
    rfl

theorem fileWOps_all_bounded (env : Env) (out : FPath) (l : List FPath) (fs0 : FS) :
    ∀ op ∈ l.flatMap (fun s => fileWOps env out s fs0), wopBounded out op := by
  intro op hop
  obtain ⟨s, hs, hmem⟩ := List.mem_flatMap.mp hop
  exact fileWOps_bounded env out s fs0 op hmem

theorem fileWOps_congr (env : Env) (out src : FPath) {fsa fsb : FS} (h : agreeOut out fsa fsb) :
    fileWOps env out src fsa = fileWOps env out src fsb := by
  have htd := targetDirOf_length out src
  have htp := targetPathOf_length out src
  have hdb : dirBlocked fsa (targetDirOf out src) = dirBlocked fsb (targetDirOf out src) := by
    apply dirBlocked_congr
    intro q hq
    have hlen := length_le_of_mem_subpaths hq
    exact h.1 q (by omega)
  have h1 : fsa.dir (targetPathOf out src) = fsb.dir (targetPathOf out src) :=
    h.2 _ (by omega)
  have h2 : fsa.dir (targetPathOf out src ++ [pathName src])
      = fsb.dir (targetPathOf out src ++ [pathName src]) :=
    h.2 _ (by simp only [List.length_append, List.length_singleton]; omega)
  unfold fileWOps
  rw [hdb, h1, h2]

theorem flatMapCongr {α β : Type} {l : List α} {f g : α → List β} (h : ∀ a ∈ l, f a = g a) :
    l.flatMap f = l.flatMap g := by
  induction l with
  | nil => rfl
  | cons a l ih =>
    simp only [List.flatMap_cons]
    rw [h a (List.mem_cons_self a l), ih (fun b hb => h b (List.mem_cons_of_mem a hb))]

theorem addDirs_file (fs : FS) (ps : List FPath) : (fs.addDirs ps).file = fs.file := by
  induction ps generalizing fs with
  | nil => rfl
  | cons p ps ih =>
    show ((fs.addDir p).addDirs ps).file = fs.file
    rw [ih]
    rfl

theorem dirBlocked_addDirs (fs : FS) (ps : List FPath) (p : FPath) :
    dirBlocked (fs.addDirs ps) p = dirBlocked fs p := by
  unfold dirBlocked
  apply anyCongr
  intro q _
  rw [addDirs_file]

theorem mkdirTree_ok_inv {out : FPath} {fs fs1 : FS}
    (h : mkdirTree out fs = Except.ok fs1) :
    dirBlocked fs out = false ∧ fs1 = fs.addDirs (subpaths out) := by
  unfold mkdirTree at h
  cases hdb : dirBlocked fs out with
  | true => rw [hdb] at h; simp at h
  | false =>
    rw [hdb] at h
    simp only [Bool.false_eq_true, if_false, Except.ok.injEq] at h
    exact ⟨rfl, h.symm⟩

theorem run_writes_idem (fs : FS) (D G : List WOp)
    (hD : ∀ (p : FPath) (c : String), WOp.wfile p c ∈ D → False) :
    applyWs (applyWs (applyWs (applyWs fs D) G) D) G = applyWs (applyWs fs D) G := by
  apply FS.eq_of
  · funext q
    simp only [applyWs_dir]
    cases hasDirWrite G q <;> cases hasDirWrite D q <;> cases fs.dir q <;> rfl
  · funext q
    have hDnone : lastFileWrite D q = none :=
      lastFileWrite_of_no_hit (fun p c hp => (hD p c hp).elim)
    simp only [applyWs_file, hDnone]
    cases hlw : lastFileWrite G q <;> simp [hlw]

theorem mainRun_dir (src out : FPath) (env : Env) (walk : List FPath × Option Err) (fs : FS) :
    mainRun src out PathStat.dir env walk fs =
      match mkdirTree out fs with
      | Except.error e => ⟨fs, [LogLine.outMkdirError out e], []⟩
      | Except.ok fs1 => read_folder env src out walk fs1 := rfl

theorem read_folder_err (env : Env) (src out : FPath) (ts : List FPath) (e : Err) (fs : FS) :
    read_folder env src out (ts, some e) fs
      = ⟨fs, [LogLine.scanStart src, LogLine.scanError src e], []⟩ := rfl

theorem read_folder_nil (env : Env) (src out : FPath) (fs : FS) :
    read_folder env src out ([], none) fs
      = ⟨fs, [LogLine.scanStart src, LogLine.noFiles], []⟩ := rfl

theorem read_folder_cons (env : Env) (src out x : FPath) (xs : List FPath) (fs : FS) :
    read_folder env src out (x :: xs, none) fs
      = ⟨(gatherResults env out (x :: xs) fs).2,
          [LogLine.scanStart src, LogLine.found (x :: xs).length]
            ++ (gatherResults env out (x :: xs) fs).1.flatMap (fun r => r.log)
            ++ [LogLine.allProcessed],
          (gatherResults env out (x :: xs) fs).1⟩ := rfl

/-- Claim C6: running the tool twice in sequence with the same source and
output directories (and an unchanged environment) produces an output tree
identical to running it once: the output-root and bucket creations are
idempotent and each copy deterministically overwrites the same destination
with the same content. -/
theorem c6_run_idempotent (src out : FPath) (st : PathStat) (env : Env)
    (walk : List FPath × Option Err) (fs : FS) :
    (mainRun src out st env walk (mainRun src out st env walk fs).fs).fs
      = (mainRun src out st env walk fs).fs := by
  cases st with
  | missing => rfl
  | file => rfl
  | dir =>
    simp only [mainRun_dir]
    cases hmt : mkdirTree out fs with
    | error e =>
      simp only [hmt]
    | ok fs1 =>
      obtain ⟨hdb, hfs1⟩ := mkdirTree_ok_inv hmt
      have hD_eq : fs.addDirs (subpaths out) = applyWs fs ((subpaths out).map WOp.wdir) :=
        addDirs_eq_applyWs fs (subpaths out)
      have hDbound : ∀ op ∈ (subpaths out).map WOp.wdir, wopBounded out op := by
        intro op hop
        obtain ⟨q, hq, rfl⟩ := List.mem_map.mp hop
        have := length_le_of_mem_subpaths hq
        simp only [wopBounded]
        omega
      have hDnofile : ∀ (p : FPath) (c : String),
          WOp.wfile p c ∈ (subpaths out).map WOp.wdir → False := by
        intro p c hp
        obtain ⟨q, _, hcontra⟩ := List.mem_map.mp hp
        exact WOp.noConfusion hcontra
      obtain ⟨l, walkErr⟩ := walk
      cases walkErr with
      | some e =>
        simp only [hmt, read_folder_err]
        have hdb1 : dirBlocked fs1 out = false := by
          rw [hfs1, dirBlocked_addDirs]
          exact hdb
        have hmt2 : mkdirTree out fs1 = Except.ok (fs1.addDirs (subpaths out)) := by
          unfold mkdirTree
          rw [hdb1]
          rfl
        have hfix : fs1.addDirs (subpaths out) = fs1 := by
          rw [hfs1, addDirs_eq_applyWs, hD_eq, applyWs_idem]
        simp only [hmt2, hfix, read_folder_err]
      | none =>
        cases l with
        | nil =>
          simp only [hmt, read_folder_nil]
          have hdb1 : dirBlocked fs1 out = false := by
            rw [hfs1, dirBlocked_addDirs]
            exact hdb
          have hmt2 : mkdirTree out fs1 = Except.ok (fs1.addDirs (subpaths out)) := by
            unfold mkdirTree
            rw [hdb1]
            rfl
          have hfix : fs1.addDirs (subpaths out) = fs1 := by
            rw [hfs1, addDirs_eq_applyWs, hD_eq, applyWs_idem]
          simp only [hmt2, hfix, read_folder_nil]
        | cons x xs =>
          simp only [hmt, read_folder_cons]
          have hagree_rf : agreeOut out fs1 (gatherResults env out (x :: xs) fs1).2 :=
            gatherResults_agree env out (x :: xs) fs1
          have hdb2 : dirBlocked (gatherResults env out (x :: xs) fs1).2 out = false := by
            have hcg : dirBlocked (gatherResults env out (x :: xs) fs1).2 out
                = dirBlocked fs1 out := by
              apply dirBlocked_congr
              intro q hq
              have := length_le_of_mem_subpaths hq
              exact ((hagree_rf).1 q (by omega)).symm
            rw [hcg, hfs1, dirBlocked_addDirs]
            exact hdb
          have hmt2 : mkdirTree out (gatherResults env out (x :: xs) fs1).2
              = Except.ok ((gatherResults env out (x :: xs) fs1).2.addDirs (subpaths out)) := by
            unfold mkdirTree
            rw [hdb2]
            rfl
          simp only [hmt2, read_folder_cons]
          have hrf : (gatherResults env out (x :: xs) fs1).2
              = applyWs fs1 ((x :: xs).flatMap (fun s => fileWOps env out s fs1)) :=
            gatherResults_fs env out (x :: xs) fs1 fs1 (agreeOut_refl out fs1)
          have hfs1' : (gatherResults env out (x :: xs) fs1).2.addDirs (subpaths out)
              = applyWs (gatherResults env out (x :: xs) fs1).2 ((subpaths out).map WOp.wdir) :=
            addDirs_eq_applyWs _ _
          have hagree_fs1' : agreeOut out fs1
              ((gatherResults env out (x :: xs) fs1).2.addDirs (subpaths out)) := by
            rw [hfs1']
            exact agreeOut_trans hagree_rf
              (agree_applyWs_of_bounded hDbound (gatherResults env out (x :: xs) fs1).2)
          have hG' : (x :: xs).flatMap
                (fun s => fileWOps env out s
                  ((gatherResults env out (x :: xs) fs1).2.addDirs (subpaths out)))
              = (x :: xs).flatMap (fun s => fileWOps env out s fs1) := by
            apply flatMapCongr
            intro s _
            exact fileWOps_congr env out s (agreeOut_symm hagree_fs1')
          have hgather2 : (gatherResults env out (x :: xs)
                ((gatherResults env out (x :: xs) fs1).2.addDirs (subpaths out))).2
              = applyWs ((gatherResults env out (x :: xs) fs1).2.addDirs (subpaths out))
                  ((x :: xs).flatMap (fun s => fileWOps env out s fs1)) := by
            rw [← hG']
            exact gatherResults_fs env out (x :: xs) _ _ (agreeOut_refl out _)
          rw [hgather2, hfs1', hrf, hfs1, hD_eq]
          exact run_writes_idem fs ((subpaths out).map WOp.wdir) _ hDnofile

theorem copy_file_def (env : Env) (src out : FPath) (fs : FS) :
    copy_file env src out fs =
      match mkdirOp env src (out ++ [bucketName (pathName src)]) fs with
      | Except.error e =>
        ⟨fs, Outcome.mkdirFailed e,
          [LogLine.mkdirError (out ++ [bucketName (pathName src)]) e],
          [Op.mkdir (out ++ [bucketName (pathName src)])]⟩
      | Except.ok fs1 =>
        match copyOp env src (out ++ [bucketName (pathName src)] ++ [pathName src]) fs1 with
        | Except.error e =>
          ⟨fs1, Outcome.copyFailed e,
            [LogLine.copying (pathName src) (bucketName (pathName src)),
              LogLine.copyError src e],
            [Op.mkdir (out ++ [bucketName (pathName src)]),
              Op.copy src (out ++ [bucketName (pathName src)] ++ [pathName src])]⟩
        | Except.ok fs2 =>
          ⟨fs2, Outcome.ok,
            [LogLine.copying (pathName src) (bucketName (pathName src))],
            [Op.mkdir (out ++ [bucketName (pathName src)]),
              Op.copy src (out ++ [bucketName (pathName src)] ++ [pathName src])]⟩ := rfl

/-- Claim C2: per-file failures are isolated.  The view (resolution, log
lines, attempted operations) of every work item in the gathered run equals
the view of that item processed alone from the initial state: no failure of
any other item alters it, every item resolves, and a failed operation only
logs its error (directory-creation failures log the target path, copy
failures log the source path) without affecting anything else. -/
theorem c2_per_file_isolation :
    (∀ (env : Env) (out : FPath) (l : List FPath) (fs : FS),
      (gatherResults env out l fs).1.map resultView
        = l.map (fun s => resultView (copy_file env s out fs))) ∧
      (∀ (env : Env) (src out : FPath) (fs : FS) (e : Err),
        (copy_file env src out fs).outcome = Outcome.mkdirFailed e →
          (copy_file env src out fs).log = [LogLine.mkdirError (targetDirOf out src) e]) ∧
      (∀ (env : Env) (src out : FPath) (fs : FS) (e : Err),
        (copy_file env src out fs).outcome = Outcome.copyFailed e →
          (copy_file env src out fs).log
            = [LogLine.copying (pathName src) (bucketName (pathName src)),
                LogLine.copyError src e]) := by
  refine ⟨fun env out l fs => gatherResults_views env out l fs, ?_, ?_⟩
  · intro env src out fs e hout
    rw [copy_file_def] at hout ⊢
    cases hmk : mkdirOp env src (out ++ [bucketName (pathName src)]) fs with
    | error e2 =>
      simp only [hmk] at hout ⊢
      cases hout
      simp [targetDirOf]
    | ok fs1 =>
      cases hcp : copyOp env src (out ++ [bucketName (pathName src)] ++ [pathName src]) fs1 with
      | error e2 =>
        simp only [hmk, hcp] at hout
        exact Outcome.noConfusion hout
      | ok fs2 =>
        simp only [hmk, hcp] at hout
        exact Outcome.noConfusion hout
  · intro env src out fs e hout
    rw [copy_file_def] at hout ⊢
    cases hmk : mkdirOp env src (out ++ [bucketName (pathName src)]) fs with
    | error e2 =>
      simp only [hmk] at hout
      exact Outcome.noConfusion hout
    | ok fs1 =>
      cases hcp : copyOp env src (out ++ [bucketName (pathName src)] ++ [pathName src]) fs1 with
      | error e2 =>
        simp only [hmk, hcp] at hout ⊢
        cases hout
        rfl
      | ok fs2 =>
        simp only [hmk, hcp] at hout
        exact Outcome.noConfusion hout

/-- Witness for C2's logging part at a concrete failing directory
creation. -/
theorem c2_per_file_isolation_witness :
    (copy_file mkdirFailEnv ["a.txt"] ["o"] emptyFS).log
      = [LogLine.mkdirError (targetDirOf ["o"] ["a.txt"]) "boom"] :=
  c2_per_file_isolation.2.1 mkdirFailEnv ["a.txt"] ["o"] emptyFS "boom" (by decide)

/-- Claim C9: `copy_file` is total with respect to ordinary exceptions:
whatever the two guarded operations do, it returns normally with one of the
three resolutions; and when directory creation fails, the filesystem is
untouched, only the directory error is logged, and the copy operation is
never attempted. -/
theorem c9_copy_file_total_short_circuit :
    (∀ (env : Env) (src out : FPath) (fs : FS),
      (copy_file env src out fs).outcome = Outcome.ok ∨
        (∃ e, (copy_file env src out fs).outcome = Outcome.mkdirFailed e) ∨
        (∃ e, (copy_file env src out fs).outcome = Outcome.copyFailed e)) ∧
      (∀ (env : Env) (src out : FPath) (fs : FS) (e : Err),
        mkdirOp env src (targetDirOf out src) fs = Except.error e →
          copy_file env src out fs
            = ⟨fs, Outcome.mkdirFailed e,
                [LogLine.mkdirError (targetDirOf out src) e],
                [Op.mkdir (targetDirOf out src)]⟩) := by
  constructor
  · intro env src out fs
    rw [copy_file_def]
    split
    · exact Or.inr (Or.inl ⟨_, rfl⟩)
    · split
      · exact Or.inr (Or.inr ⟨_, rfl⟩)
      · exact Or.inl rfl
  · intro env src out fs e hmk
    simp only [targetDirOf] at hmk
    rw [copy_file_def, hmk]
    simp [targetDirOf]

/-- Witness for C9's short-circuit at a concrete failing directory
creation. -/
theorem c9_copy_file_total_short_circuit_witness :
    copy_file mkdirFailEnv ["a.txt"] ["o"] emptyFS
      = ⟨emptyFS, Outcome.mkdirFailed "boom",
          [LogLine.mkdirError (targetDirOf ["o"] ["a.txt"]) "boom"],
          [Op.mkdir (targetDirOf ["o"] ["a.txt"])]⟩ :=
  c9_copy_file_total_short_circuit.2 mkdirFailEnv ["a.txt"] ["o"] emptyFS "boom" rfl

/-- Claim C4: when iterating the traversal raises (even after yielding some
entries), `read_folder` logs the scan error and returns at once: no copy is
started, the filesystem is untouched, no per-file result exists and the
completion line is never logged. -/
theorem c4_scan_failure_fatal (env : Env) (src out : FPath) (ts : List FPath) (e : Err)
    (fs : FS) :
    read_folder env src out (ts, some e) fs
        = ⟨fs, [LogLine.scanStart src, LogLine.scanError src e], []⟩ ∧
      (read_folder env src out (ts, some e) fs).results = [] ∧
      (read_folder env src out (ts, some e) fs).fs = fs ∧
      LogLine.allProcessed ∉ (read_folder env src out (ts, some e) fs).log :=
  ⟨rfl, rfl, rfl, by rw [read_folder_err]; simp⟩

/-- Claim C5: an invalid source path (missing, or a regular file rather
than a directory) aborts the run during input validation: only the error is
logged, the output root is not created (the filesystem is untouched) and no
file is processed. -/
theorem c5_invalid_source_aborts (src out : FPath) (st : PathStat) (env : Env)
    (walk : List FPath × Option Err) (fs : FS)
    (h : st = PathStat.missing ∨ st = PathStat.file) :
    mainRun src out st env walk fs = ⟨fs, [LogLine.srcInvalid src], []⟩ ∧
      (mainRun src out st env walk fs).fs = fs ∧
      (mainRun src out st env walk fs).results = [] := by
  rcases h with rfl | rfl <;> exact ⟨rfl, rfl, rfl⟩

/-- Witness for C5 at a source path that is a regular file. -/
theorem c5_invalid_source_aborts_witness :
    mainRun ["s"] ["o"] PathStat.file plainEnv ([], none) emptyFS
        = ⟨emptyFS, [LogLine.srcInvalid ["s"]], []⟩ ∧
      (mainRun ["s"] ["o"] PathStat.file plainEnv ([], none) emptyFS).fs = emptyFS ∧
      (mainRun ["s"] ["o"] PathStat.file plainEnv ([], none) emptyFS).results = [] :=
  c5_invalid_source_aborts ["s"] ["o"] PathStat.file plainEnv ([], none) emptyFS (Or.inr rfl)

/-- Claim C10: when the output path exists as a regular file, the
create-if-missing creation of the output root still fails; the error is
logged and the run aborts before the scan, with nothing enumerated or
copied and the filesystem untouched. -/
theorem c10_output_file_conflict (src out : FPath) (env : Env)
    (walk : List FPath × Option Err) (fs : FS) (c : String) (h : fs.file out = some c) :
    mainRun src out PathStat.dir env walk fs
        = ⟨fs, [LogLine.outMkdirError out "mkdir failed"], []⟩ ∧
      LogLine.scanStart src ∉ (mainRun src out PathStat.dir env walk fs).log ∧
      (mainRun src out PathStat.dir env walk fs).fs = fs ∧
      (mainRun src out PathStat.dir env walk fs).results = [] := by
  have hdb : dirBlocked fs out = true := by
    unfold dirBlocked
    rw [List.any_eq_true]
    exact ⟨out, self_mem_subpaths out, by rw [h]; rfl⟩
  have hmt : mkdirTree out fs = Except.error "mkdir failed" := by
    unfold mkdirTree
    rw [hdb]
    rfl
  have hmain : mainRun src out PathStat.dir env walk fs
      = ⟨fs, [LogLine.outMkdirError out "mkdir failed"], []⟩ := by
    rw [mainRun_dir, hmt]
  refine ⟨hmain, ?_, ?_, ?_⟩
  · rw [hmain]
    simp
  · rw [hmain]
  · rw [hmain]

/-- Witness for C10: the output path `o` holds a regular file. -/
theorem c10_output_file_conflict_witness :
    mainRun ["s"] ["o"] PathStat.dir plainEnv ([], none) fileAtOut
        = ⟨fileAtOut, [LogLine.outMkdirError ["o"] "mkdir failed"], []⟩ ∧
      LogLine.scanStart ["s"]
          ∉ (mainRun ["s"] ["o"] PathStat.dir plainEnv ([], none) fileAtOut).log ∧
      (mainRun ["s"] ["o"] PathStat.dir plainEnv ([], none) fileAtOut).fs = fileAtOut ∧
      (mainRun ["s"] ["o"] PathStat.dir plainEnv ([], none) fileAtOut).results = [] :=
  c10_output_file_conflict ["s"] ["o"] plainEnv ([], none) fileAtOut "occupied" (by decide)

theorem relHits_rel_nil (es : List (String × FsNode)) : relHitsNonDir es [] = false := by
  cases es <;> simp [relHitsNonDir]

theorem walkTasks_mem_iff : ∀ (root : FPath) (es : List (String × FsNode)) (p : FPath),
    p ∈ walkTasks root es ↔ ∃ rel, p = root ++ rel ∧ relHitsNonDir es rel = true := by
  intro root es
  induction root, es using walkTasks.induct with
  | case1 root =>
    intro p
    constructor
    · intro hp
      simp [walkTasks] at hp
    · rintro ⟨rel, rfl, hr⟩
      cases rel with
      | nil => rw [relHits_rel_nil] at hr; cases hr
      | cons m rel' => simp [relHitsNonDir] at hr
  | case2 root n rest ih =>
    intro p
    simp only [walkTasks, List.mem_cons]
    constructor
    · rintro (rfl | hp)
      · exact ⟨[n], rfl, by rw [relHitsNonDir.eq_def]; simp⟩
      · obtain ⟨rel, rfl, hr⟩ := (ih p).mp hp
        cases rel with
        | nil => rw [relHits_rel_nil] at hr; cases hr
        | cons m rel' => exact ⟨m :: rel', rfl, by rw [relHitsNonDir.eq_def]; simp [hr]⟩
    · rintro ⟨rel, rfl, hr⟩
      cases rel with
      | nil => rw [relHits_rel_nil] at hr; cases hr
      | cons m rel' =>
        rw [relHitsNonDir.eq_def] at hr
        simp only [Bool.or_eq_true] at hr
        rcases hr with hleft | hright
        · by_cases hnm : n = m
          · subst hnm
            cases rel' with
            | nil => left; rfl
            | cons a rl => simp at hleft
          · simp [hnm] at hleft
        · right
          exact (ih _).mpr ⟨m :: rel', rfl, hright⟩
  | case3 root n rest ih =>
    intro p
    simp only [walkTasks, List.mem_cons]
    constructor
    · rintro (rfl | hp)
      · exact ⟨[n], rfl, by rw [relHitsNonDir.eq_def]; simp⟩
      · obtain ⟨rel, rfl, hr⟩ := (ih p).mp hp
        cases rel with
        | nil => rw [relHits_rel_nil] at hr; cases hr
        | cons m rel' => exact ⟨m :: rel', rfl, by rw [relHitsNonDir.eq_def]; simp [hr]⟩
    · rintro ⟨rel, rfl, hr⟩
      cases rel with
      | nil => rw [relHits_rel_nil] at hr; cases hr
      | cons m rel' =>
        rw [relHitsNonDir.eq_def] at hr
        simp only [Bool.or_eq_true] at hr
        rcases hr with hleft | hright
        · by_cases hnm : n = m
          · subst hnm
            cases rel' with
            | nil => left; rfl
            | cons a rl => simp at hleft
          · simp [hnm] at hleft
        · right
          exact (ih _).mpr ⟨m :: rel', rfl, hright⟩
  | case4 root m rest ih =>
    intro p
    simp only [walkTasks]
    constructor
    · intro hp
      obtain ⟨rel, rfl, hr⟩ := (ih p).mp hp
      cases rel with
      | nil => rw [relHits_rel_nil] at hr; cases hr
      | cons k rel' => exact ⟨k :: rel', rfl, by rw [relHitsNonDir.eq_def]; simp [hr]⟩
    · rintro ⟨rel, rfl, hr⟩
      cases rel with
      | nil => rw [relHits_rel_nil] at hr; cases hr
      | cons k rel' =>
        rw [relHitsNonDir.eq_def] at hr
        simp only [Bool.or_eq_true] at hr
        rcases hr with hleft | hright
        · by_cases hmk : m = k
          · subst hmk
            cases rel' with
            | nil => simp at hleft
            | cons a rl => simp at hleft
          · simp [hmk] at hleft
        · exact (ih _).mpr ⟨k :: rel', rfl, hright⟩
  | case5 root n es rest ih1 ih2 =>
    intro p
    simp only [walkTasks, List.mem_append]
    constructor
    · rintro (hp | hp)
      · obtain ⟨rel', rfl, hr⟩ := (ih1 p).mp hp
        refine ⟨n :: rel', by simp, ?_⟩
        cases rel' with
        | nil => rw [relHits_rel_nil] at hr; cases hr
        | cons a rl =>
          rw [relHitsNonDir.eq_def]
          simp [hr]
      · obtain ⟨rel, rfl, hr⟩ := (ih2 p).mp hp
        cases rel with
        | nil => rw [relHits_rel_nil] at hr; cases hr
        | cons m rel' => exact ⟨m :: rel', rfl, by rw [relHitsNonDir.eq_def]; simp [hr]⟩
    · rintro ⟨rel, rfl, hr⟩
      cases rel with
      | nil => rw [relHits_rel_nil] at hr; cases hr
      | cons m rel' =>
        rw [relHitsNonDir.eq_def] at hr
        simp only [Bool.or_eq_true] at hr
        rcases hr with hleft | hright
        · by_cases hnm : n = m
          · subst hnm
            cases rel' with
            | nil => simp at hleft
            | cons a rl =>
              left
              refine (ih1 _).mpr ⟨a :: rl, by simp, ?_⟩
              simpa using hleft
          · simp [hnm] at hleft
        · right
          exact (ih2 _).mpr ⟨m :: rel', rfl, hright⟩

theorem walkTasks_eq_specScanNonDir : ∀ (root : FPath) (es : List (String × FsNode)),
    walkTasks root es = specScanNonDirEntries root es := by
  intro root es
  induction root, es using walkTasks.induct with
  | case1 root => simp [walkTasks, specScanNonDirEntries]
  | case2 root n rest ih => simp [walkTasks, specScanNonDirEntries, ih]
  | case3 root n rest ih => simp [walkTasks, specScanNonDirEntries, ih]
  | case4 root n rest ih => simp [walkTasks, specScanNonDirEntries, ih]
  | case5 root n es rest ih1 ih2 => simp [walkTasks, specScanNonDirEntries, ih1, ih2]

/-- Claim C3, counterexample: a symlink whose target is not a directory is
enumerated by the walk as a work item, so the scan output is not the list
of regular files: a tree holding only the symlink `link` yields the task
`src/link` while it contains no regular file at all. -/
theorem c3_symlink_counterexample :
    walkTasks ["src"] [("link", FsNode.symlinkFile)] = [["src", "link"]] ∧
      specScanRegularFiles ["src"] [("link", FsNode.symlinkFile)] = [] ∧
      walkTasks ["src"] [("link", FsNode.symlinkFile)]
        ≠ specScanRegularFiles ["src"] [("link", FsNode.symlinkFile)] := by
  have h1 : walkTasks ["src"] [("link", FsNode.symlinkFile)] = [["src", "link"]] := by
    simp [walkTasks]
  have h2 : specScanRegularFiles ["src"] [("link", FsNode.symlinkFile)] = [] := by
    simp [specScanRegularFiles]
  refine ⟨h1, h2, ?_⟩
  rw [h1, h2]
  simp

/-- Claim C3 (amended): the scanner enumerates exactly the non-directory
entries (regular files and symlinks to non-directories) beneath the source
directory at every nesting level: a path is enumerated precisely when it
leads through real subdirectories to a non-directory entry, so directories
(and symlinked directories, which are not traversed) are never themselves
enumerated as work items. -/
theorem c3_scanner_amended :
    (∀ (root : FPath) (es : List (String × FsNode)),
      walkTasks root es = specScanNonDirEntries root es) ∧
      (∀ (root : FPath) (es : List (String × FsNode)) (p : FPath),
        p ∈ walkTasks root es ↔ ∃ rel, p = root ++ rel ∧ relHitsNonDir es rel = true) :=
  ⟨walkTasks_eq_specScanNonDir, fun root es p => walkTasks_mem_iff root es p⟩

/-- Witness for C3 at a concrete nested tree with a symlinked directory. -/
theorem c3_scanner_amended_witness :
    ∃ rel, (["src", "sub", "a.txt"] : FPath) = ["src"] ++ rel ∧
      relHitsNonDir [("sub", FsNode.dir [("a.txt", FsNode.file)]),
        ("ld", FsNode.symlinkDir)] rel = true :=
  (c3_scanner_amended.2 ["src"]
      [("sub", FsNode.dir [("a.txt", FsNode.file)]), ("ld", FsNode.symlinkDir)]
      ["src", "sub", "a.txt"]).mp (by simp [walkTasks])
theorem allProcessed_not_in_copy_file_log (env : Env) (src out : FPath) (fs : FS) :
    LogLine.allProcessed ∉ (copy_file env src out fs).log := by
  rw [copy_file_def]
  split
  · simp
  · split
    · simp
    · simp

theorem allProcessed_not_in_taskEvents (env : Env) (out : FPath) (fs : FS) (src : FPath) :
    TEvent.logLine LogLine.allProcessed ∉ taskEvents env out fs src := by
  unfold taskEvents
  intro hmem
  rcases List.mem_append.mp hmem with hin | hin
  · obtain ⟨l, hl, hle⟩ := List.mem_map.mp hin
    injection hle with hle2
    subst hle2
    exact allProcessed_not_in_copy_file_log env src out fs hl
  · simp at hin

/-- Claim C7: in a copy phase, under every interleaving (schedule) of the
per-task event streams that `asyncio.gather` may produce, the completion
log line appears exactly once, as the very last event, strictly after the
resolution event of every work item: the driver joins on all items and the
done line is logged only after the join. -/
theorem c7_done_after_all_resolved (env : Env) (out : FPath) (fs : FS) (srcs : List FPath)
    (sched : List (Nat × TEvent))
    (h : isSchedule (srcs.map (taskEvents env out fs)) sched = true) :
    gatherRunEvents sched = sched.map Prod.snd ++ [TEvent.logLine LogLine.allProcessed] ∧
      TEvent.logLine LogLine.allProcessed ∉ sched.map Prod.snd ∧
      ∀ src ∈ srcs,
        TEvent.resolved src (copy_file env src out fs).outcome ∈ sched.map Prod.snd := by
  unfold isSchedule at h
  rw [Bool.and_eq_true] at h
  obtain ⟨h1, h2⟩ := h
  rw [List.all_eq_true] at h1
  rw [List.all_eq_true] at h2
  refine ⟨rfl, ?_, ?_⟩
  · intro hmem
    obtain ⟨x, hx, hxe⟩ := List.mem_map.mp hmem
    have hi : x.1 < (srcs.map (taskEvents env out fs)).length := of_decide_eq_true (h1 x hx)
    have hfil := of_decide_eq_true (h2 x.1 (List.mem_range.mpr hi))
    have hfmem : x ∈ sched.filter (fun y => y.1 == x.1) :=
      List.mem_filter.mpr ⟨hx, by simp⟩
    have hx2 : x.2 ∈ (sched.filter (fun y => y.1 == x.1)).map Prod.snd :=
      List.mem_map.mpr ⟨x, hfmem, rfl⟩
    rw [hfil] at hx2
    have hlen : x.1 < srcs.length := by simpa using hi
    have hgetd : (srcs.map (taskEvents env out fs)).getD x.1 []
        = taskEvents env out fs (srcs.get ⟨x.1, hlen⟩) := by
      rw [List.getD_eq_getElem?_getD, List.getElem?_map, List.getElem?_eq_getElem hlen]
      rfl
    rw [hgetd, hxe] at hx2
    exact allProcessed_not_in_taskEvents env out fs _ hx2
  · intro src hsrc
    obtain ⟨i, hlen, hEl⟩ := List.mem_iff_getElem.mp hsrc
    have hi : i < (srcs.map (taskEvents env out fs)).length := by simpa using hlen
    have hfil := of_decide_eq_true (h2 i (List.mem_range.mpr hi))
    have hgetd : (srcs.map (taskEvents env out fs)).getD i [] = taskEvents env out fs src := by
      rw [List.getD_eq_getElem?_getD, List.getElem?_map, List.getElem?_eq_getElem hlen]
      rw [hEl]
      rfl
    have hres : TEvent.resolved src (copy_file env src out fs).outcome
        ∈ (srcs.map (taskEvents env out fs)).getD i [] := by
      rw [hgetd]
      unfold taskEvents
      exact List.mem_append.mpr (Or.inr (by simp))
    rw [← hfil] at hres
    obtain ⟨x, hxf, hxe⟩ := List.mem_map.mp hres
    exact List.mem_map.mpr ⟨x, (List.mem_filter.mp hxf).1, hxe⟩

/-- Witness for C7 at a concrete two-task interleaved schedule. -/
theorem c7_done_after_all_resolved_witness :
    TEvent.resolved ["a.txt"] (copy_file plainEnv ["a.txt"] ["o"] emptyFS).outcome
      ∈ ([(0, TEvent.logLine (LogLine.copying "a.txt" "TXT")),
          (1, TEvent.logLine (LogLine.copying "b" "NO_EXTENSION")),
          (1, TEvent.resolved ["b"] Outcome.ok),
          (0, TEvent.resolved ["a.txt"] Outcome.ok)].map Prod.snd) :=
  (c7_done_after_all_resolved plainEnv ["o"] emptyFS [["a.txt"], ["b"]]
      [(0, TEvent.logLine (LogLine.copying "a.txt" "TXT")),
        (1, TEvent.logLine (LogLine.copying "b" "NO_EXTENSION")),
        (1, TEvent.resolved ["b"] Outcome.ok),
        (0, TEvent.resolved ["a.txt"] Outcome.ok)] (by decide)).2.2
    ["a.txt"] (by simp)
